import Mathlib

/-!
Verification development for the stack-rooting and cross-thread pinning
subsystem of the servo script engine.

The embedding models:
  * `RootCollection` (src/components/script/dom/bindings/js.rs): the per-thread
    stack root registry.  A slot holds a `*mut JSObject`; we model pointers as
    `Nat`, with `0` standing for the null pointer (a tombstone) and any nonzero
    value standing for a live object pointer (`root` receives a
    `NonZero<*mut JSObject>` in the source, so rooted pointers are nonzero).
    The backing store is a Rust `Vec` created with `Vec::with_capacity(4096)`;
    we track the capacity and a buffer generation counter: `Vec::push` keeps
    the buffer exactly when `len < capacity`, and reallocates (invalidating
    every previously handed-out element address) when `len == capacity`.
  * `Trusted` / `LiveDOMReferences`
    (src/components/script/dom/bindings/refcounted.rs): cross-thread pinned
    handles with refcounted liveness cells and asynchronous cleanup.
  * `DOMVec` (src/components/script/dom/bindings/js.rs): a vector whose
    backing storage is a SpiderMonkey array, modelled through the engine's
    documented array primitives (`JS_GetElement`, `JS_SetElement`,
    `JS_SetArrayLength`).
-/

/-- A slot address handed out by `RootCollection::root`: in the source it is
`&roots[next_empty_idx] : *const *mut JSObject`, i.e. an address inside the
current backing buffer.  We model it as the pair of the buffer generation at
the time the address was taken and the slot index. -/
structure SlotAddr where
  gen : Nat
  idx : Nat
deriving DecidableEq, Repr

/-- The stack root registry (`RootCollection` in js.rs):
`roots: UnsafeCell<Vec<*mut JSObject>>` and `next_empty_idx: Cell<usize>`,
plus the backing `Vec`'s capacity and a buffer-generation counter that
increments whenever a `push` at full capacity reallocates the buffer. -/
structure RootCollection where
  roots : List Nat
  next_empty_idx : Nat
  cap : Nat
  gen : Nat
deriving DecidableEq, Repr

/-- `RootCollection::new`: an empty vector with `Vec::with_capacity(4096)`. -/
def RootCollection.new : RootCollection :=
  { roots := [], next_empty_idx := 0, cap := 4096, gen := 0 }

/-- The scan loop of `RootCollection::root`:
`while next_empty_idx < len && !roots[next_empty_idx].is_null() { next_empty_idx += 1 }`.
`scanFrom t i` runs the loop with `t` the suffix of the slot list starting at
index `i`; it returns the final value of `next_empty_idx`. -/
def scanFrom : List Nat → Nat → Nat
  | [], i => i
  | p :: rest, i => if p ≠ 0 then scanFrom rest (i + 1) else i

/-- The scan of `RootCollection::root` over the whole slot list, starting at
the stored free cursor. -/
def scanFree (l : List Nat) (i : Nat) : Nat := scanFrom (l.drop i) i

/-- `RootCollection::root(obj)`: scans from the free cursor for a tombstoned
slot; reuses it if one exists before the end, otherwise pushes.  Returns the
new state together with the returned slot address (`&roots[next_empty_idx]`)
and the slot index.  A push at full capacity reallocates the `Vec` buffer
(the generation counter increments and the capacity grows, as Rust's `RawVec`
amortized growth does). -/
def RootCollection.root (rc : RootCollection) (obj : Nat) :
    RootCollection × SlotAddr × Nat :=
  let len := rc.roots.length
  let j := scanFree rc.roots rc.next_empty_idx
  if j < len then
    ({ rc with roots := rc.roots.set j obj, next_empty_idx := j },
     { gen := rc.gen, idx := j }, j)
  else if len < rc.cap then
    ({ rc with roots := rc.roots ++ [obj], next_empty_idx := j },
     { gen := rc.gen, idx := j }, j)
  else
    ({ roots := rc.roots ++ [obj], next_empty_idx := j,
       cap := max (2 * rc.cap) (len + 1), gen := rc.gen + 1 },
     { gen := rc.gen + 1, idx := j }, j)

/-- The backward trim loop of `RootCollection::unroot`:
`for entry in roots[..idx].iter().rev() { if !entry.is_null() { break; } idx -= 1; }`.
`trimBack l i` returns the final value of `idx` when started at `i`. -/
def trimBack (l : List Nat) : Nat → Nat
  | 0 => 0
  | i + 1 => if l.getD i 0 ≠ 0 then i + 1 else trimBack l i

/-- `RootCollection::unroot(idx)`: `none` models the fatal paths (the
out-of-bounds panic of `roots[idx]` and the `assert!(!roots[idx].is_null())`
failure).  Otherwise tombstones the slot; if the slot is not the last one,
lowers the free cursor to `idx` when `idx` is below it; if it is the last one,
trims all trailing tombstones, sets the cursor to the trimmed length and
truncates the vector (`Vec::truncate` never reallocates, so the generation is
unchanged). -/
def RootCollection.unroot (rc : RootCollection) (idx : Nat) : Option RootCollection :=
  let len := rc.roots.length
  if idx < len then
    if rc.roots.getD idx 0 = 0 then
      none
    else
      let roots := rc.roots.set idx 0
      if len - 1 ≠ idx then
        let nei := if idx < rc.next_empty_idx then idx else rc.next_empty_idx
        some { rc with roots := roots, next_empty_idx := nei }
      else
        let j := trimBack roots idx
        some { rc with roots := roots.take j, next_empty_idx := j }
  else
    none

/-- A registry operation: one `root` call (with the nonnull object pointer it
registers) or one `unroot` call (with the slot index). -/
inductive RootOp where
  | root (obj : Nat)
  | unroot (idx : Nat)
deriving DecidableEq, Repr

/-- One registry call; the slot address and index returned by `root` are not
part of the state. -/
def RootCollection.step (rc : RootCollection) : RootOp → Option RootCollection
  | .root obj => some (rc.root obj).1
  | .unroot idx => rc.unroot idx

/-- A sequence of registry calls, aborting at the first fatal one. -/
def RootCollection.run (rc : RootCollection) : List RootOp → Option RootCollection
  | [] => some rc
  | op :: ops =>
    match rc.step op with
    | none => none
    | some rc' => RootCollection.run rc' ops

/-- Dereference a previously returned slot address: defined (and equal to the
slot's contents) only when the address belongs to the current buffer
generation and is in bounds; a reallocation leaves addresses of older
generations dangling. -/
def derefAddr (rc : RootCollection) (a : SlotAddr) : Option Nat :=
  if a.gen = rc.gen ∧ a.idx < rc.roots.length then
    some (rc.roots.getD a.idx 0)
  else
    none

/-- The registry state reached from `RootCollection.new` by `k` consecutive
root calls (all with object pointer `1`), for `1 ≤ k ≤ 4096`: `k` filled
slots, cursor on the last filled slot, untouched capacity and buffer. -/
def filledState (k : Nat) : RootCollection :=
  { roots := List.replicate k 1, next_empty_idx := k - 1, cap := 4096, gen := 0 }

/-- Indicator of a live (non-null) slot. -/
def natb (p : Nat) : Nat := if p ≠ 0 then 1 else 0

/-- Number of live (non-null, i.e. non-tombstoned) slots. -/
def liveCount : List Nat → Nat
  | [] => 0
  | p :: rest => natb p + liveCount rest

/-- Number of `root` calls in an operation sequence. -/
def rootCount : List RootOp → Nat
  | [] => 0
  | .root _ :: ops => rootCount ops + 1
  | .unroot _ :: ops => rootCount ops

/-- Number of `unroot` calls in an operation sequence. -/
def unrootCount : List RootOp → Nat
  | [] => 0
  | .root _ :: ops => unrootCount ops
  | .unroot _ :: ops => unrootCount ops + 1

/-- The state of one pinned object's liveness cell
(src/components/script/dom/bindings/refcounted.rs).  The cell is the
`Arc<Heap<*mut JSObject>>` created by `LiveDOMReferences::addref`; its strong
count equals the number of `Arc` clones in existence: one held by the
`LiveDOMReferences` table entry (while present), one per outstanding
`Trusted<T>` value, and one per in-flight `RefcountCleanup` message (each
message owns a `TrustedReference` clone).  `msgsSent` counts the cleanup
messages ever sent over the script channel. -/
structure TrustedCell where
  inTable : Bool
  handles : Nat
  pendingMsgs : Nat
  msgsSent : Nat
deriving DecidableEq, Repr

/-- Strong count of the cell's `Arc`, as observed by `Arc::strong_count`. -/
def TrustedCell.strongCount (s : TrustedCell) : Nat :=
  (if s.inTable then 1 else 0) + s.handles + s.pendingMsgs

/-- `Trusted::new` on an object with no existing table entry:
`LiveDOMReferences::addref` creates the cell (count 1), pushes a clone into
the table (count 2) and returns the original to the new `Trusted<T>`. -/
def TrustedCell.new : TrustedCell :=
  { inTable := true, handles := 1, pendingMsgs := 0, msgsSent := 0 }

/-- `Trusted::clone`: `self.objref.clone()` adds one handle-held `Arc` clone. -/
def TrustedCell.clone (s : TrustedCell) : TrustedCell :=
  { s with handles := s.handles + 1 }

/-- `Trusted::drop`: with the dropped handle's clone still counted, reads
`Arc::strong_count(&self.objref)`; `assert!(refcount > 0)` cannot fire while
a handle exists.  If the count is at most 2 (the table entry and this last
handle), sends a `RefcountCleanup(TrustedReference(self.objref.clone()))`
message; the message's clone replaces the handle's, which is then released.
Returns `none` only for the impossible call with no outstanding handle. -/
def TrustedCell.drop (s : TrustedCell) : Option TrustedCell :=
  if s.handles = 0 then
    none
  else
    let refcount := s.strongCount
    if refcount ≤ 2 then
      some { s with handles := s.handles - 1, pendingMsgs := s.pendingMsgs + 1,
                    msgsSent := s.msgsSent + 1 }
    else
      some { s with handles := s.handles - 1 }

/-- `LiveDOMReferences::cleanup`, processing one `RefcountCleanup` message on
the owning thread.  The message's `TrustedReference` clone is alive during the
handler.  If the table holds an entry for the object, the handler re-checks
`Arc::strong_count(&table[idx])` and removes the entry only when the count is
at most 2 (the table entry plus the message's own clone); the message's clone
is released afterwards either way.  With no table entry the source hits
`unreachable!(...)`, modelled as `none`. -/
def LiveDOMReferences.cleanup (s : TrustedCell) : Option TrustedCell :=
  if s.pendingMsgs = 0 then
    none
  else if s.inTable then
    if s.strongCount ≤ 2 then
      some { s with inTable := false, pendingMsgs := s.pendingMsgs - 1 }
    else
      some { s with pendingMsgs := s.pendingMsgs - 1 }
  else
    none

/-- A `Trusted<T>` handle as seen by `Trusted::root`: the object pointer held
in the shared `Heap` cell (`objref.get()`) and the `owner_thread` marker,
which the source records as the address of the owning thread's
`LiveDOMReferences` table. -/
structure TrustedHandle where
  objref : Nat
  owner_thread : Nat
deriving DecidableEq, Repr

/-- `Trusted::root`: asserts that the current thread's `LiveDOMReferences`
identity (`live_references`) equals the handle's recorded `owner_thread`
marker — the fatal assertion failure is modelled as `none` — and otherwise
creates a stack root via `Root::new`, i.e. `RootCollection::root` on the
current thread's registry. -/
def TrustedHandle.root (t : TrustedHandle) (live_references : Nat)
    (rc : RootCollection) : Option (RootCollection × SlotAddr × Nat) :=
  if t.owner_thread = live_references then some (rc.root t.objref) else none

/-- A SpiderMonkey value as stored in a `DOMVec`'s backing JS array: either
`undefined` (a hole / out-of-bounds read) or an object value carrying a DOM
object pointer.  `JSValConversion` between a wrapper `T` and its object value
is the collector's documented round-trip contract (`from_jsval (get_jsval x) = x`),
so an element is represented by its pointer. -/
inductive JSVal where
  | undefined
  | object (ptr : Nat)
deriving DecidableEq, Repr

/-- `JS_GetElement` on a dense array: the element when in bounds, `undefined`
otherwise. -/
def jsGetElement (l : List JSVal) (idx : Nat) : JSVal :=
  l.getD idx .undefined

/-- `JS_SetElement` on a dense array: overwrites in bounds; writing past the
end extends the array with holes up to `idx` and sets `length` to `idx + 1`. -/
def jsSetElement (l : List JSVal) (idx : Nat) (v : JSVal) : List JSVal :=
  if idx < l.length then l.set idx v
  else l ++ List.replicate (idx - l.length) .undefined ++ [v]

/-- `JS_SetArrayLength`: truncates when the new length is smaller, extends
with holes when larger. -/
def jsSetArrayLength (l : List JSVal) (n : Nat) : List JSVal :=
  if n ≤ l.length then l.take n
  else l ++ List.replicate (n - l.length) .undefined

/-- `DOMVec::len`, via `JS_GetArrayLength`. -/
def DOMVec.len (l : List JSVal) : Nat := l.length

/-- `DOMVec::get(idx)`: reads the element with `JS_GetElement`; a non-object
value (an `undefined` hole or out-of-bounds read) yields `None`, otherwise
`Some` of the converted element. -/
def DOMVec.get (l : List JSVal) (idx : Nat) : Option Nat :=
  match jsGetElement l idx with
  | .undefined => none
  | .object p => some p

/-- `DOMVec::set(idx, obj)`: writes the element's object value with
`JS_SetElement`. -/
def DOMVec.set (l : List JSVal) (idx : Nat) (obj : Nat) : List JSVal :=
  jsSetElement l idx (.object obj)

/-- `DOMVec::push(obj)`: `self.set(self.len(), obj)`. -/
def DOMVec.push (l : List JSVal) (obj : Nat) : List JSVal :=
  DOMVec.set l (DOMVec.len l) obj

/-- `DOMVec::insert(idx, obj)`: the source simply calls `self.push(obj)`
(the index is ignored; the source carries an XXX comment about splicing). -/
def DOMVec.insert (l : List JSVal) (idx : Nat) (obj : Nat) : List JSVal :=
  DOMVec.push l obj

/-- `DOMVec::clear`: `JS_SetArrayLength(.., 0)`. -/
def DOMVec.clear (l : List JSVal) : List JSVal :=
  jsSetArrayLength l 0

/-- `DOMVec::remove(idx)`: if the array has at most one element, clears it;
if `idx` is the last index, shrinks the length by one; otherwise reads the
last element, shrinks the length by one, and overwrites slot `idx` with it
(an order-breaking swap-remove). -/
def DOMVec.remove (l : List JSVal) (idx : Nat) : List JSVal :=
  let len := DOMVec.len l
  if len ≤ 1 then
    DOMVec.clear l
  else if idx + 1 = len then
    jsSetArrayLength l (len - 1)
  else
    let v := jsGetElement l (len - 1)
    jsSetElement (jsSetArrayLength l (len - 1)) idx v

theorem getD_oob (l : List Nat) (k : Nat) (h : l.length ≤ k) : l.getD k 0 = 0 := by
  simp [List.getD_eq_getElem?_getD, List.getElem?_eq_none h]

theorem getD_set_self (l : List Nat) (i v : Nat) (h : i < l.length) :
    (l.set i v).getD i 0 = v := by
  simp [List.getD_eq_getElem?_getD, List.getElem?_set_self h]

theorem getD_set_ne (l : List Nat) (i v k : Nat) (h : i ≠ k) :
    (l.set i v).getD k 0 = l.getD k 0 := by
  simp [List.getD_eq_getElem?_getD, List.getElem?_set_ne h]

theorem getD_take (l : List Nat) (j k : Nat) (h : k < j) :
    (l.take j).getD k 0 = l.getD k 0 := by
  simp [List.getD_eq_getElem?_getD, List.getElem?_take_of_lt h]

theorem getD_drop (l : List Nat) : ∀ i m : Nat, (l.drop i).getD m 0 = l.getD (i + m) 0 := by
  induction l with
  | nil => intro i m; simp
  | cons a t ih =>
    intro i m
    cases i with
    | zero => simp
    | succ i => rw [List.drop_succ_cons, ih i m, Nat.succ_add, List.getD_cons_succ]

theorem trimBack_le (l : List Nat) : ∀ i, trimBack l i ≤ i := by
  intro i
  induction i with
  | zero => simp [trimBack]
  | succ i ih =>
    rw [trimBack]
    split
    · exact Nat.le_refl _
    · exact Nat.le_trans ih (Nat.le_succ i)

theorem trimBack_zero (l : List Nat) :
    ∀ i k, trimBack l i ≤ k → k < i → l.getD k 0 = 0 := by
  intro i
  induction i with
  | zero => intro k _ hk; omega
  | succ i ih =>
    intro k h1 h2
    rw [trimBack] at h1
    by_cases hc : l.getD i 0 ≠ 0
    · rw [if_pos hc] at h1; omega
    · rw [if_neg hc] at h1
      push_neg at hc
      rcases Nat.lt_succ_iff_lt_or_eq.mp h2 with h | h
      · exact ih k h1 h
      · rw [h]; exact hc

theorem trimBack_last_live (l : List Nat) :
    ∀ i, trimBack l i = 0 ∨ l.getD (trimBack l i - 1) 0 ≠ 0 := by
  intro i
  induction i with
  | zero => left; simp [trimBack]
  | succ i ih =>
    rw [trimBack]
    split
    · next h => right; simpa using h
    · exact ih

theorem scanFrom_le (t : List Nat) :
    ∀ i, i ≤ scanFrom t i ∧ scanFrom t i ≤ i + t.length := by
  induction t with
  | nil => intro i; simp [scanFrom]
  | cons p rest ih =>
    intro i
    rw [scanFrom]
    split
    · obtain ⟨h1, h2⟩ := ih (i + 1)
      refine ⟨by omega, ?_⟩
      simp only [List.length_cons]
      omega
    · simp

theorem scanFrom_getD (t : List Nat) :
    ∀ i, scanFrom t i < i + t.length → t.getD (scanFrom t i - i) 0 = 0 := by
  induction t with
  | nil => intro i h; simp [scanFrom] at h
  | cons p rest ih =>
    intro i h
    rw [scanFrom] at h ⊢
    by_cases hp : p ≠ 0
    · rw [if_pos hp] at h ⊢
      have h1 := (scanFrom_le rest (i + 1)).1
      have h2 : scanFrom rest (i + 1) < (i + 1) + rest.length := by
        simp only [List.length_cons] at h; omega
      have h3 := ih (i + 1) h2
      have heq : scanFrom rest (i + 1) - i = (scanFrom rest (i + 1) - (i + 1)) + 1 := by
        omega
      rw [heq, List.getD_cons_succ]
      exact h3
    · rw [if_neg hp]
      push_neg at hp
      simp [hp]

theorem scanFree_ge (l : List Nat) (i : Nat) : i ≤ scanFree l i :=
  (scanFrom_le (l.drop i) i).1

theorem scanFree_free (l : List Nat) (i : Nat) (h : scanFree l i < l.length) :
    l.getD (scanFree l i) 0 = 0 := by
  unfold scanFree at h ⊢
  have hge := (scanFrom_le (l.drop i) i).1
  have hlen : (l.drop i).length = l.length - i := List.length_drop i l
  have hlt : scanFrom (l.drop i) i < i + (l.drop i).length := by omega
  have h3 := scanFrom_getD (l.drop i) i hlt
  rwa [getD_drop l i _, Nat.add_sub_cancel' hge] at h3

theorem unroot_eq_some (rc rc' : RootCollection) (idx : Nat)
    (h : rc.unroot idx = some rc') :
    idx < rc.roots.length ∧ rc.roots.getD idx 0 ≠ 0 ∧
    ((rc.roots.length - 1 ≠ idx ∧
      rc' = ⟨rc.roots.set idx 0,
             if idx < rc.next_empty_idx then idx else rc.next_empty_idx,
             rc.cap, rc.gen⟩) ∨
     (rc.roots.length - 1 = idx ∧
      rc' = ⟨(rc.roots.set idx 0).take (trimBack (rc.roots.set idx 0) idx),
             trimBack (rc.roots.set idx 0) idx, rc.cap, rc.gen⟩)) := by
  simp only [RootCollection.unroot] at h
  split_ifs at h with h1 h2 h3 h4
  · refine ⟨h1, h2, Or.inl ⟨h3, ?_⟩⟩
    split
    · exact (Option.some.inj h).symm
    · contradiction
  · refine ⟨h1, h2, Or.inl ⟨h3, ?_⟩⟩
    split
    · contradiction
    · exact (Option.some.inj h).symm
  · push_neg at h3
    refine ⟨h1, h2, Or.inr ⟨h3, ?_⟩⟩
    exact (Option.some.inj h).symm

theorem unroot_none_of_dead (rc : RootCollection) (idx : Nat)
    (h : rc.roots.getD idx 0 = 0) : rc.unroot idx = none := by
  simp only [RootCollection.unroot]
  split_ifs <;> rfl

/-- C2: when `unroot(idx)` is called with `idx` the last (highest) slot of the
registry, it removes that slot and all contiguous trailing tombstones from the
tail: afterwards the registry length is at most `idx`, the cursor equals the
new length, the surviving prefix is unchanged, the registry is empty or ends
in a live slot (so its length is one past the highest remaining live slot),
and every dropped slot below `idx` was a tombstone. -/
theorem unroot_last_trims (rc rc' : RootCollection) (idx : Nat)
    (hlast : idx + 1 = rc.roots.length)
    (hlive : rc.roots.getD idx 0 ≠ 0)
    (hun : rc.unroot idx = some rc') :
    rc'.roots.length ≤ idx ∧
    rc'.next_empty_idx = rc'.roots.length ∧
    (∀ k, k < rc'.roots.length → rc'.roots.getD k 0 = rc.roots.getD k 0) ∧
    (rc'.roots = [] ∨ rc'.roots.getD (rc'.roots.length - 1) 0 ≠ 0) ∧
    (∀ k, rc'.roots.length ≤ k → k < idx → rc.roots.getD k 0 = 0) := by
  obtain ⟨h1, h2, hcase⟩ := unroot_eq_some rc rc' idx hun
  rcases hcase with ⟨hne, _⟩ | ⟨heq, hrc'⟩
  · omega
  · subst hrc'
    dsimp only
    have hjle : trimBack (rc.roots.set idx 0) idx ≤ idx :=
      trimBack_le (rc.roots.set idx 0) idx
    have hlen' : (rc.roots.set idx 0).length = rc.roots.length :=
      List.length_set rc.roots idx 0
    have hlentake :
        ((rc.roots.set idx 0).take (trimBack (rc.roots.set idx 0) idx)).length
          = trimBack (rc.roots.set idx 0) idx := by
      rw [List.length_take]
      omega
    refine ⟨?_, ?_, ?_, ?_, ?_⟩
    · rw [hlentake]; exact hjle
    · rw [hlentake]
    · intro k hk
      rw [hlentake] at hk
      rw [getD_take _ _ _ hk, getD_set_ne rc.roots idx 0 k (by omega)]
    · by_cases hj0 : trimBack (rc.roots.set idx 0) idx = 0
      · left; rw [hj0]; rfl
      · right
        rcases trimBack_last_live (rc.roots.set idx 0) idx with h | h
        · exact absurd h hj0
        · rw [hlentake, getD_take _ _ _ (by omega)]
          exact h
    · intro k hk1 hk2
      rw [hlentake] at hk1
      have hz := trimBack_zero (rc.roots.set idx 0) idx k hk1 hk2
      rwa [getD_set_ne rc.roots idx 0 k (by omega)] at hz

/-- C2 witness: rooting A,B,C (10,20,30) at indices 0,1,2, then unrooting B
(index 1) and then C (index 2) leaves the registry holding exactly one slot. -/
theorem unroot_last_trims_witness :
    RootCollection.run RootCollection.new [.root 10, .root 20, .root 30, .unroot 1]
      = some ⟨[10, 0, 30], 1, 4096, 0⟩ ∧
    RootCollection.unroot ⟨[10, 0, 30], 1, 4096, 0⟩ 2 = some ⟨[10], 1, 4096, 0⟩ ∧
    (⟨[10], 1, 4096, 0⟩ : RootCollection).roots.length ≤ 2 ∧
    (⟨[10], 1, 4096, 0⟩ : RootCollection).next_empty_idx
      = (⟨[10], 1, 4096, 0⟩ : RootCollection).roots.length := by
  refine ⟨by decide, by decide, ?_, ?_⟩
  · exact (unroot_last_trims ⟨[10, 0, 30], 1, 4096, 0⟩ ⟨[10], 1, 4096, 0⟩ 2
      (by decide) (by decide) (by decide)).1
  · exact (unroot_last_trims ⟨[10, 0, 30], 1, 4096, 0⟩ ⟨[10], 1, 4096, 0⟩ 2
      (by decide) (by decide) (by decide)).2.1

/-- C3 counterexample: on the reachable registry state `[30, 20]` with free
cursor `0` (the cursor is a stale hint pointing at a live slot), unrooting
the live last slot `1` raises the cursor from `0` to `1`, which exceeds
`min 0 1`: the free cursor after an unroot is NOT always at most the minimum
of its prior value and the unrooted index. -/
theorem unroot_cursor_can_increase :
    RootCollection.run RootCollection.new [.root 10, .root 20, .unroot 0, .root 30]
      = some ⟨[30, 20], 0, 4096, 0⟩ ∧
    (⟨[30, 20], 0, 4096, 0⟩ : RootCollection).roots.getD 1 0 ≠ 0 ∧
    RootCollection.unroot ⟨[30, 20], 0, 4096, 0⟩ 1 = some ⟨[30], 1, 4096, 0⟩ ∧
    ¬ ((⟨[30], 1, 4096, 0⟩ : RootCollection).next_empty_idx ≤
        min (⟨[30, 20], 0, 4096, 0⟩ : RootCollection).next_empty_idx 1) := by
  decide

/-- C3 amended: after a successful `unroot(idx)` the free cursor is at most
`idx`; when `idx` is not the last slot it is additionally at most the minimum
of its prior value and `idx`.  (Unrooting the last slot sets the cursor to the
trimmed tail length, which can exceed a stale prior cursor value, as the
counterexample shows.) -/
theorem unroot_cursor_bound (rc rc' : RootCollection) (idx : Nat)
    (h : rc.unroot idx = some rc') :
    rc'.next_empty_idx ≤ idx ∧
    (idx + 1 ≠ rc.roots.length →
      rc'.next_empty_idx ≤ min rc.next_empty_idx idx) := by
  obtain ⟨h1, h2, hcase⟩ := unroot_eq_some rc rc' idx h
  rcases hcase with ⟨hne, hrc'⟩ | ⟨heq, hrc'⟩
  · subst hrc'
    dsimp only
    constructor
    · split <;> omega
    · intro _
      split <;> omega
  · subst hrc'
    dsimp only
    have hjle := trimBack_le (rc.roots.set idx 0) idx
    refine ⟨hjle, fun hc => absurd ?_ hc⟩
    omega

/-- C3 amended, witness: a concrete successful unroot with the cursor bound. -/
theorem unroot_cursor_bound_witness :
    RootCollection.unroot ⟨[30, 20], 0, 4096, 0⟩ 1 = some ⟨[30], 1, 4096, 0⟩ ∧
    (⟨[30], 1, 4096, 0⟩ : RootCollection).next_empty_idx ≤ 1 := by
  refine ⟨by decide, ?_⟩
  exact (unroot_cursor_bound ⟨[30, 20], 0, 4096, 0⟩ ⟨[30], 1, 4096, 0⟩ 1 (by decide)).1

/-- C7: calling `unroot(idx)` when the slot at `idx` is not live — already
tombstoned, or never rooted (including out of bounds) — takes the fatal path
(`none`, modelling the index panic / `assert!` failure), never a silent no-op;
in particular after a successful `unroot(idx)` a second `unroot(idx)` is
fatal. -/
theorem unroot_dead_or_double_fatal (rc rc' : RootCollection) (idx : Nat) :
    (rc.roots.getD idx 0 = 0 → rc.unroot idx = none) ∧
    (rc.unroot idx = some rc' → rc'.unroot idx = none) := by
  constructor
  · exact unroot_none_of_dead rc idx
  · intro h
    apply unroot_none_of_dead
    obtain ⟨h1, h2, hcase⟩ := unroot_eq_some rc rc' idx h
    rcases hcase with ⟨hne, hrc'⟩ | ⟨heq, hrc'⟩ <;> subst hrc' <;> dsimp only
    · exact getD_set_self rc.roots idx 0 h1
    · apply getD_oob
      have hjle := trimBack_le (rc.roots.set idx 0) idx
      rw [List.length_take]
      omega

theorem liveCount_append (l1 l2 : List Nat) :
    liveCount (l1 ++ l2) = liveCount l1 + liveCount l2 := by
  induction l1 with
  | nil => simp [liveCount]
  | cons a t ih =>
    show natb a + liveCount (t ++ l2) = natb a + liveCount t + liveCount l2
    rw [ih]
    omega

theorem liveCount_set (l : List Nat) :
    ∀ i v, i < l.length →
      liveCount (l.set i v) + natb (l.getD i 0) = liveCount l + natb v := by
  induction l with
  | nil => intro i v h; simp at h
  | cons a t ih =>
    intro i v h
    cases i with
    | zero =>
      simp only [List.set_cons_zero, liveCount, List.getD_cons_zero]
      omega
    | succ i =>
      have hih := ih i v (by simpa using h)
      simp only [List.set_cons_succ, liveCount, List.getD_cons_succ]
      omega

theorem liveCount_eq_zero (l : List Nat)
    (h : ∀ k, k < l.length → l.getD k 0 = 0) : liveCount l = 0 := by
  induction l with
  | nil => rfl
  | cons a t ih =>
    have ha : a = 0 := h 0 (by simp)
    have ht : liveCount t = 0 := ih (fun k hk => h (k + 1) (by simpa using hk))
    simp [liveCount, ha, ht, natb]

theorem liveCount_take (l : List Nat) :
    ∀ j, (∀ k, j ≤ k → k < l.length → l.getD k 0 = 0) →
      liveCount (l.take j) = liveCount l := by
  induction l with
  | nil => intro j _; simp
  | cons a t ih =>
    intro j h
    cases j with
    | zero =>
      rw [List.take_zero]
      exact (liveCount_eq_zero (a :: t) (fun k hk => h k (Nat.zero_le k) hk)).symm
    | succ j =>
      simp only [List.take_succ_cons, liveCount]
      rw [ih j (fun k hk1 hk2 => by
        have := h (k + 1) (by omega) (by simpa using hk2)
        simpa using this)]

theorem root_liveCount (rc : RootCollection) (obj : Nat) (h : obj ≠ 0) :
    liveCount (rc.root obj).1.roots = liveCount rc.roots + 1 := by
  simp only [RootCollection.root]
  split_ifs with h1 h2 <;> dsimp only
  · have hf := scanFree_free rc.roots rc.next_empty_idx h1
    have hs := liveCount_set rc.roots (scanFree rc.roots rc.next_empty_idx) obj h1
    rw [hf] at hs
    simp only [natb, h, if_true, if_false, ne_eq, not_true_eq_false,
      not_false_eq_true] at hs
    omega
  · rw [liveCount_append]
    simp [liveCount, natb, h]
  · rw [liveCount_append]
    simp [liveCount, natb, h]

theorem unroot_liveCount (rc rc' : RootCollection) (idx : Nat)
    (h : rc.unroot idx = some rc') :
    liveCount rc'.roots + 1 = liveCount rc.roots := by
  obtain ⟨h1, h2, hcase⟩ := unroot_eq_some rc rc' idx h
  have hset := liveCount_set rc.roots idx 0 h1
  have hn : natb (rc.roots.getD idx 0) = 1 := by
    unfold natb
    rw [if_pos h2]
  have hz : natb 0 = 0 := by simp [natb]
  rw [hn, hz] at hset
  rcases hcase with ⟨hne, hrc'⟩ | ⟨heq, hrc'⟩ <;> subst hrc' <;> dsimp only
  · omega
  · have hlen : idx + 1 = rc.roots.length := by omega
    have htk : liveCount ((rc.roots.set idx 0).take (trimBack (rc.roots.set idx 0) idx))
        = liveCount (rc.roots.set idx 0) := by
      apply liveCount_take
      intro k hk1 hk2
      rw [List.length_set] at hk2
      by_cases hki : k = idx
      · rw [hki]
        exact getD_set_self rc.roots idx 0 h1
      · exact trimBack_zero (rc.roots.set idx 0) idx k hk1 (by omega)
    omega

theorem run_liveCount_aux (ops : List RootOp) :
    ∀ (s0 s : RootCollection),
      (∀ obj, RootOp.root obj ∈ ops → obj ≠ 0) →
      RootCollection.run s0 ops = some s →
      liveCount s.roots + unrootCount ops = rootCount ops + liveCount s0.roots := by
  induction ops with
  | nil =>
    intro s0 s _ h
    simp only [RootCollection.run, Option.some.injEq] at h
    subst h
    simp [rootCount, unrootCount]
  | cons op ops ih =>
    intro s0 s hnz hrun
    cases op with
    | root obj =>
      simp only [RootCollection.run, RootCollection.step] at hrun
      have hobj : obj ≠ 0 := hnz obj (List.Mem.head ops)
      have hih := ih (s0.root obj).1 s (fun o ho => hnz o (List.Mem.tail _ ho)) hrun
      have hr := root_liveCount s0 obj hobj
      simp only [rootCount, unrootCount]
      omega
    | unroot idx =>
      simp only [RootCollection.run, RootCollection.step] at hrun
      cases hu : s0.unroot idx with
      | none => rw [hu] at hrun; simp at hrun
      | some s1 =>
        rw [hu] at hrun
        have hih := ih s1 s (fun o ho => hnz o (List.Mem.tail _ ho)) hrun
        have hul := unroot_liveCount s0 s1 idx hu
        simp only [rootCount, unrootCount]
        omega

/-- C4: for every sequence of `root`/`unroot` calls run from a fresh registry
in which every rooted pointer is nonnull and every call succeeds, the number
of live (non-tombstoned, non-null) slots afterwards equals the number of
`root` calls minus the number of `unroot` calls — each root adds exactly one
live slot and each unroot removes exactly one (applies to every successful
prefix, hence at every point of any sequence). -/
theorem run_liveCount (ops : List RootOp) (s : RootCollection)
    (hnz : ∀ obj, RootOp.root obj ∈ ops → obj ≠ 0)
    (hrun : RootCollection.run RootCollection.new ops = some s) :
    liveCount s.roots + unrootCount ops = rootCount ops := by
  have h := run_liveCount_aux ops RootCollection.new s hnz hrun
  simpa [RootCollection.new, liveCount] using h

/-- C4 witness: two roots and one unroot leave exactly one live slot. -/
theorem run_liveCount_witness :
    RootCollection.run RootCollection.new [.root 5, .root 7, .unroot 0]
      = some ⟨[0, 7], 0, 4096, 0⟩ ∧
    liveCount (⟨[0, 7], 0, 4096, 0⟩ : RootCollection).roots
        + unrootCount [RootOp.root 5, .root 7, .unroot 0]
      = rootCount [RootOp.root 5, .root 7, .unroot 0] := by
  refine ⟨by decide, run_liveCount _ _ ?_ (by decide)⟩
  intro obj hm
  simp only [List.mem_cons, List.not_mem_nil, or_false] at hm
  rcases hm with h | h | h
  · cases h; decide
  · cases h; decide
  · cases h

/-- C7 witness: a tombstoned slot and a double unroot both abort. -/
theorem unroot_dead_or_double_fatal_witness :
    RootCollection.unroot ⟨[0, 7], 0, 4096, 0⟩ 0 = none ∧
    RootCollection.unroot ⟨[], 0, 4096, 0⟩ 0 = none := by
  constructor
  · exact (unroot_dead_or_double_fatal ⟨[0, 7], 0, 4096, 0⟩ ⟨[], 0, 4096, 0⟩ 0).1
      (by decide)
  · exact (unroot_dead_or_double_fatal ⟨[5], 0, 4096, 0⟩ ⟨[], 0, 4096, 0⟩ 0).2
      (by decide)

theorem drop_replicate (a : Nat) :
    ∀ n i, (List.replicate n a).drop i = List.replicate (n - i) a := by
  intro n
  induction n with
  | zero => intro i; simp
  | succ n ih =>
    intro i
    cases i with
    | zero => simp
    | succ i =>
      rw [List.replicate_succ, List.drop_succ_cons, ih i, Nat.succ_sub_succ]

theorem scanFree_filled (k : Nat) (hk : 1 ≤ k) :
    scanFree (List.replicate k 1) (k - 1) = k := by
  unfold scanFree
  rw [drop_replicate 1 k (k - 1)]
  have h1 : k - (k - 1) = 1 := by omega
  rw [h1]
  show scanFrom [1] (k - 1) = k
  rw [scanFrom]
  simp [scanFrom]
  omega

theorem root_filled (k : Nat) (h1 : 1 ≤ k) (h2 : k < 4096) :
    (filledState k).root 1 = (filledState (k + 1), ⟨0, k⟩, k) := by
  unfold filledState RootCollection.root
  dsimp only
  rw [scanFree_filled k h1, List.length_replicate]
  rw [if_neg (by omega), if_pos (by omega)]
  simp [List.replicate_succ']

theorem root_filled_full :
    (filledState 4096).root 1
      = (⟨List.replicate 4097 1, 4096, 8192, 1⟩, ⟨1, 4096⟩, 4096) := by
  unfold filledState RootCollection.root
  dsimp only
  rw [scanFree_filled 4096 (by omega), List.length_replicate]
  rw [if_neg (by omega), if_neg (by omega)]
  rw [← List.replicate_succ' 4096 1]
  have hmax : max (2 * 4096) (4096 + 1) = 8192 := by norm_num [Nat.max_def]
  rw [hmax]

theorem run_append (l1 l2 : List RootOp) :
    ∀ s, RootCollection.run s (l1 ++ l2)
      = match RootCollection.run s l1 with
        | none => none
        | some s1 => RootCollection.run s1 l2 := by
  induction l1 with
  | nil => intro s; rfl
  | cons op t ih =>
    intro s
    show RootCollection.run s (op :: (t ++ l2)) = _
    simp only [RootCollection.run]
    cases hs : s.step op with
    | none => rfl
    | some s1 => exact ih s1

theorem run_filled (m : Nat) :
    ∀ k, 1 ≤ k → k + m ≤ 4096 →
      RootCollection.run (filledState k) (List.replicate m (RootOp.root 1))
        = some (filledState (k + m)) := by
  induction m with
  | zero => intro k hk1 hk2; simp [RootCollection.run]
  | succ m ih =>
    intro k hk1 hk2
    rw [List.replicate_succ]
    simp only [RootCollection.run, RootCollection.step, root_filled k hk1 (by omega)]
    rw [ih (k + 1) (by omega) (by omega)]
    congr 2
    omega

theorem root_new : RootCollection.new.root 1 = (filledState 1, ⟨0, 0⟩, 0) := by
  decide

/-- C1 (refuted on the code; the spec mandates the guarantee): the slot
address returned by the first root call on a fresh registry — buffer
generation 0, slot 0 — is dangling after 4096 further interleaved root calls:
the 4097th root appends with the backing `Vec` at its full reserved capacity
of 4096, which reallocates the buffer (generation 1), so the previously
returned live slot address no longer dereferences even though slot 0 was
never unrooted and still holds the registered object pointer. -/
theorem root_addr_invalidated_by_growth :
    RootCollection.new.root 1 = (filledState 1, ⟨0, 0⟩, 0) ∧
    derefAddr (filledState 1) ⟨0, 0⟩ = some 1 ∧
    RootCollection.run (filledState 1) (List.replicate 4096 (RootOp.root 1))
      = some ⟨List.replicate 4097 1, 4096, 8192, 1⟩ ∧
    (⟨List.replicate 4097 1, 4096, 8192, 1⟩ : RootCollection).roots.getD 0 0 = 1 ∧
    derefAddr ⟨List.replicate 4097 1, 4096, 8192, 1⟩ ⟨0, 0⟩ = none := by
  refine ⟨root_new, by decide, ?_, ?_, by decide⟩
  · rw [show (4096 : Nat) = 4095 + 1 by norm_num, List.replicate_succ']
    rw [run_append (List.replicate 4095 (RootOp.root 1)) [RootOp.root 1] (filledState 1)]
    rw [run_filled 4095 1 (by omega) (by omega)]
    show RootCollection.run (filledState (1 + 4095)) [RootOp.root 1] = _
    rw [show (1 + 4095 : Nat) = 4096 by norm_num]
    simp only [RootCollection.run, RootCollection.step, root_filled_full]
  · rw [show (4097 : Nat) = 4096 + 1 by norm_num, List.replicate_succ]
    rfl

/-- C5: creating one pinned handle for an object, cloning it twice, and then
dropping all three handles (the three drops act identically on the cell, so
one sequence covers every order) sends exactly one cleanup message
(`msgsSent = 1`); processing that message on the owning thread re-checks the
strong count — 2, the sole-holder threshold: the table's clone plus the
message's own — and removes the entry from the live-reference table. -/
theorem trusted_single_cleanup :
    ((TrustedCell.new.clone.clone.drop.bind TrustedCell.drop).bind TrustedCell.drop)
      = some ⟨true, 0, 1, 1⟩ ∧
    LiveDOMReferences.cleanup ⟨true, 0, 1, 1⟩ = some ⟨false, 0, 0, 1⟩ := by
  decide

theorem scanFree_le_length (l : List Nat) (i : Nat) (h : i ≤ l.length) :
    scanFree l i ≤ l.length := by
  have h2 := (scanFrom_le (l.drop i) i).2
  have hlen := List.length_drop i l
  unfold scanFree
  omega

theorem root_slot (rc : RootCollection) (obj : Nat)
    (hn : rc.next_empty_idx ≤ rc.roots.length) :
    ((rc.root obj).1).roots.getD ((rc.root obj).2.2) 0 = obj := by
  have hj := scanFree_le_length rc.roots rc.next_empty_idx hn
  simp only [RootCollection.root]
  split_ifs with h1 h2 <;> dsimp only
  · exact getD_set_self rc.roots _ obj h1
  · have hj2 : scanFree rc.roots rc.next_empty_idx = rc.roots.length := by omega
    rw [hj2]
    simp [List.getD_eq_getElem?_getD, List.getElem?_concat_length]
  · have hj2 : scanFree rc.roots rc.next_empty_idx = rc.roots.length := by omega
    rw [hj2]
    simp [List.getD_eq_getElem?_getD, List.getElem?_concat_length]

/-- C6: resolving a pinned handle (`Trusted::root`) from a thread whose
live-reference table identity differs from the handle's recorded owning-thread
marker takes the fatal assertion path (`none`) and never returns a root; on
the owning thread (and a registry whose cursor is within bounds, as every
reachable registry's is) it returns a scoped root handle whose registry slot
holds the pinned object's pointer. -/
theorem trusted_root_thread_check (t : TrustedHandle) (cur : Nat)
    (rc : RootCollection) (hn : rc.next_empty_idx ≤ rc.roots.length) :
    (cur ≠ t.owner_thread → t.root cur rc = none) ∧
    (cur = t.owner_thread →
      t.root cur rc = some (rc.root t.objref) ∧
      ((rc.root t.objref).1).roots.getD ((rc.root t.objref).2.2) 0 = t.objref) := by
  constructor
  · intro h
    unfold TrustedHandle.root
    rw [if_neg (fun hh => h hh.symm)]
  · intro h
    refine ⟨?_, root_slot rc t.objref hn⟩
    unfold TrustedHandle.root
    rw [if_pos h.symm]

/-- C6 witness: wrong thread aborts; owning thread roots the object. -/
theorem trusted_root_thread_check_witness :
    TrustedHandle.root ⟨5, 100⟩ 101 RootCollection.new = none ∧
    TrustedHandle.root ⟨5, 100⟩ 100 RootCollection.new
      = some (⟨[5], 0, 4096, 0⟩, ⟨0, 0⟩, 0) ∧
    (⟨[5], 0, 4096, 0⟩ : RootCollection).roots.getD 0 0 = 5 := by
  refine ⟨(trusted_root_thread_check ⟨5, 100⟩ 101 RootCollection.new
    (by decide)).1 (by decide), by decide, by decide⟩

theorem domvec_remove_small (l : List JSVal) (idx : Nat) (h1 : l.length ≤ 1) :
    DOMVec.remove l idx = [] := by
  simp [DOMVec.remove, DOMVec.len, DOMVec.clear, jsSetArrayLength, h1]

theorem domvec_remove_last (l : List JSVal) (idx : Nat) (h1 : 1 < l.length)
    (h2 : idx + 1 = l.length) :
    DOMVec.remove l idx = l.take (l.length - 1) := by
  unfold DOMVec.remove DOMVec.len
  rw [if_neg (by omega), if_pos h2]
  unfold jsSetArrayLength
  rw [if_pos (by omega)]

theorem domvec_remove_mid (l : List JSVal) (idx : Nat) (h1 : 1 < l.length)
    (h2 : idx + 1 ≠ l.length) (h3 : idx < l.length) :
    DOMVec.remove l idx
      = (l.take (l.length - 1)).set idx (jsGetElement l (l.length - 1)) := by
  unfold DOMVec.remove DOMVec.len
  rw [if_neg (by omega), if_neg h2]
  unfold jsSetArrayLength jsSetElement
  rw [if_pos (show l.length - 1 ≤ l.length by omega)]
  rw [if_pos (show idx < (List.take (l.length - 1) l).length by
    rw [List.length_take]; omega)]

/-- C8: `DOMVec::remove(idx)` with `idx < n` is swap-remove: a single-element
vector is truncated to empty; removing the last index shrinks the length by
one leaving the prefix unchanged; otherwise the element at the last index is
moved into slot `idx` and the length shrinks by one.  In every case the
length decreases by exactly one. -/
theorem domvec_remove_swap (l : List JSVal) (idx : Nat) (h : idx < l.length) :
    (DOMVec.remove l idx).length = l.length - 1 ∧
    (l.length = 1 → DOMVec.remove l idx = []) ∧
    (1 < l.length → idx + 1 = l.length → DOMVec.remove l idx = l.take (l.length - 1)) ∧
    (1 < l.length → idx + 1 ≠ l.length →
      DOMVec.remove l idx
        = (l.take (l.length - 1)).set idx (jsGetElement l (l.length - 1))) := by
  refine ⟨?_, ?_, ?_, ?_⟩
  · by_cases hc1 : l.length ≤ 1
    · rw [domvec_remove_small l idx hc1]
      simp only [List.length_nil]
      omega
    · by_cases hc2 : idx + 1 = l.length
      · rw [domvec_remove_last l idx (by omega) hc2, List.length_take]
        omega
      · rw [domvec_remove_mid l idx (by omega) hc2 h, List.length_set,
          List.length_take]
        omega
  · intro h1
    exact domvec_remove_small l idx (by omega)
  · intro h1 h2
    exact domvec_remove_last l idx h1 h2
  · intro h1 h2
    exact domvec_remove_mid l idx h1 h2 h

/-- C8 witness: removing index 1 from `[a,b,c,d]` yields `[a,d,c]`, not
`[a,c,d]`. -/
theorem domvec_remove_swap_witness :
    DOMVec.remove [JSVal.object 1, .object 2, .object 3, .object 4] 1
      = [JSVal.object 1, .object 4, .object 3] ∧
    DOMVec.remove [JSVal.object 1, .object 2, .object 3, .object 4] 1
      ≠ [JSVal.object 1, .object 3, .object 4] ∧
    (DOMVec.remove [JSVal.object 1, .object 2, .object 3, .object 4] 1).length = 3 := by
  refine ⟨by decide, by decide, ?_⟩
  exact (domvec_remove_swap [JSVal.object 1, .object 2, .object 3, .object 4] 1
    (by decide)).1

theorem domvec_push_eq (l : List JSVal) (x : Nat) :
    DOMVec.push l x = l ++ [JSVal.object x] := by
  unfold DOMVec.push DOMVec.set DOMVec.len jsSetElement
  rw [if_neg (by omega), Nat.sub_self]
  simp

/-- C9: after `push(x)` on a GC-backed vector of length `n`, `len()` returns
`n + 1` and `get(n)` returns `Some(x)` — the element round-trips through the
collector's value representation. -/
theorem domvec_push_get (l : List JSVal) (x : Nat) :
    DOMVec.len (DOMVec.push l x) = DOMVec.len l + 1 ∧
    DOMVec.get (DOMVec.push l x) (DOMVec.len l) = some x := by
  rw [domvec_push_eq]
  constructor
  · simp [DOMVec.len]
  · unfold DOMVec.get jsGetElement DOMVec.len
    simp [List.getD_eq_getElem?_getD, List.getElem?_concat_length]

/-- C10: `DOMVec::insert(idx, x)` appends `x` at the end of the vector
regardless of `idx` — it is exactly `push(x)` — and neither splices `x` in at
position `idx` nor shifts any existing element: every element below the old
length is unchanged and the appended element sits at the old length. -/
theorem domvec_insert_appends (l : List JSVal) (idx : Nat) (x : Nat) :
    DOMVec.insert l idx x = DOMVec.push l x ∧
    DOMVec.insert l idx x = l ++ [JSVal.object x] ∧
    (∀ k, k < l.length → jsGetElement (DOMVec.insert l idx x) k = jsGetElement l k) ∧
    jsGetElement (DOMVec.insert l idx x) l.length = JSVal.object x := by
  refine ⟨rfl, domvec_push_eq l x, ?_, ?_⟩
  · intro k hk
    show jsGetElement (DOMVec.push l x) k = jsGetElement l k
    rw [domvec_push_eq]
    unfold jsGetElement
    simp [List.getD_eq_getElem?_getD, List.getElem?_append_left hk]
  · show jsGetElement (DOMVec.push l x) l.length = JSVal.object x
    rw [domvec_push_eq]
    unfold jsGetElement
    simp [List.getD_eq_getElem?_getD, List.getElem?_concat_length]

/-- C10 witness: inserting at index 1 of a two-element vector appends. -/
theorem domvec_insert_appends_witness :
    DOMVec.insert [JSVal.object 1, .object 2] 1 9
      = [JSVal.object 1, .object 2, .object 9] ∧
    jsGetElement (DOMVec.insert [JSVal.object 1, .object 2] 1 9) 0
      = jsGetElement [JSVal.object 1, .object 2] 0 := by
  refine ⟨by decide, ?_⟩
  exact (domvec_insert_appends [JSVal.object 1, .object 2] 1 9).2.2.1 0 (by decide)
